import Mathlib

/-!
Shallow embedding of `src/mvn.py` (function `bin_list`).

The Python source is:

    def bin_list(url='https://archive.apache.org/dist/maven/maven-3/'):
        url = url.strip('/')
        with urlopen(url) as resp:
            body = resp.read().decode('utf-8')
        vers = [m.group(1) for m in re.finditer(r'>(\d+((\.|-)(\d|\w)+)+)', body)]
        vers.sort(reverse=True)
        latest_ver = vers[0]
        list_url = f'{url}/{latest_ver}/binaries'
        return [f'{list_url}/apache-maven-{latest_ver}-bin.tar.gz',
                f'{list_url}/apache-maven-{latest_ver}-bin.zip']

The network is modelled as an oracle `net : String → List Nat` mapping the
requested URL to the raw response bytes.  Character classes model the ASCII
fragment of Python's `\d` / `\w` (the HTML listings scraped here are ASCII).
-/

namespace Mvn

/-- Python regex `\d` (ASCII fragment): a decimal digit. -/
def isDig (c : Char) : Bool := '0' ≤ c && c ≤ '9'

/-- Python regex `\w` (ASCII fragment): letter, digit or underscore. -/
def isWordCh (c : Char) : Bool :=
  ('a' ≤ c && c ≤ 'z') || ('A' ≤ c && c ≤ 'Z') || ('0' ≤ c && c ≤ '9') || c = '_'

/-- The separator alternation `(\.|-)` of the pattern. -/
def isSep (c : Char) : Bool := c = '.' || c = '-'

/-- The character alternation `(\d|\w)` of the pattern. -/
def isTokCh (c : Char) : Bool := isDig c || isWordCh c

/-- Greedy matching of `((\.|-)p+)+`-style group repetitions, parameterised by
the inner character class `p`.  Returns the consumed characters and the
remaining input.  `fuel` only bounds recursion depth; every recursive step
consumes at least two characters, so `fuel := input.length` never runs out. -/
def sepGroupsAux (p : Char → Bool) : Nat → List Char → List Char × List Char
  | 0, l => ([], l)
  | _, [] => ([], [])
  | fuel+1, c :: rest =>
    if isSep c then
      let ws := rest.takeWhile p
      if ws = [] then ([], c :: rest)
      else
        let gr := sepGroupsAux p fuel (rest.dropWhile p)
        (c :: (ws ++ gr.1), gr.2)
    else ([], c :: rest)

/-- Greedy match of the captured group `\d+((\.|-)p+)+` at the start of `l`
(the position right after a `>`).  Returns the captured token and the
remaining input, or `none` when the pattern does not match here.  Greedy
matching needs no backtracking for this pattern: giving back characters from
a maximal `\d+` (resp. `p+`) run can never enable the following separator. -/
def matchTokenP (p : Char → Bool) (l : List Char) : Option (List Char × List Char) :=
  let ds := l.takeWhile isDig
  if ds = [] then none
  else
    let rest := l.dropWhile isDig
    let gr := sepGroupsAux p rest.length rest
    if gr.1 = [] then none else some (ds ++ gr.1, gr.2)

/-- `re.finditer(r'>(' ++ pattern ++ ')', body)`: scan left to right; at a
`>` try to match the token group right after it; on success emit the captured
group and resume after the match (non-overlapping), otherwise advance one
character.  `fuel := input.length` suffices (each step consumes ≥ 1 char). -/
def scanTokensAux (p : Char → Bool) : Nat → List Char → List (List Char)
  | 0, _ => []
  | _, [] => []
  | fuel+1, c :: rest =>
    if c = '>' then
      match matchTokenP p rest with
      | some tr => tr.1 :: scanTokensAux p fuel tr.2
      | none => scanTokensAux p fuel rest
    else scanTokensAux p fuel rest

/-- All captured groups of `re.finditer(r'>(\d+((\.|-)(\d|\w)+)+)', body)`. -/
def scanTokens (l : List Char) : List (List Char) := scanTokensAux isTokCh l.length l

/-- Same scan with the simplified inner class `\w` in place of `(\d|\w)`,
i.e. the pattern `>(\d+((\.|-)\w+)+)`. -/
def scanTokensAlt (l : List Char) : List (List Char) := scanTokensAux isWordCh l.length l

/-- String-level version of `scanTokens`. -/
def scanTokensS (body : String) : List String :=
  (scanTokens body.data).map (fun t => String.mk t)

/-- Python's `<` on strings, on the underlying character lists: strict
lexicographic comparison by code point. -/
def ltChars : List Char → List Char → Bool
  | [], [] => false
  | [], _ :: _ => true
  | _ :: _, [] => false
  | a :: as, b :: bs => if a < b then true else if b < a then false else ltChars as bs

/-- Insert into a descending-sorted list, keeping it descending (stable). -/
def insertDesc (s : String) : List String → List String
  | [] => [s]
  | t :: ts => if ltChars t.data s.data then s :: t :: ts else t :: insertDesc s ts

/-- Python `vers.sort(reverse=True)`: sort into descending lexicographic
(code-point) string order. -/
def sortDesc (l : List String) : List String := l.foldl (fun acc s => insertDesc s acc) []

/-- Python `url.strip('/')` on the character list: remove `/` from both ends. -/
def stripSlashesL (l : List Char) : List Char :=
  ((l.dropWhile (fun c => c = '/')).reverse.dropWhile (fun c => c = '/')).reverse

/-- Python `url.strip('/')`. -/
def stripSlashes (s : String) : String := String.mk (stripSlashesL s.data)

/-- A run of `n` slash characters. -/
def slashes (n : Nat) : String := String.mk (List.replicate n '/')

/-- Is `b` a UTF-8 continuation byte (`0x80–0xBF`)? -/
def isCont (b : Nat) : Bool := 0x80 ≤ b && b ≤ 0xBF

/-- Strict UTF-8 decoding, as Python's `bytes.decode('utf-8')`: rejects
invalid start bytes, truncated sequences, bad continuations, overlong
encodings, surrogates and code points above `U+10FFFF`. -/
def utf8Decode : List Nat → Option (List Char)
  | [] => some []
  | b :: l =>
    if b < 0x80 then
      (utf8Decode l).map (fun cs => Char.ofNat b :: cs)
    else if b < 0xC2 then none
    else if b < 0xE0 then
      match l with
      | b1 :: l2 =>
        if isCont b1 then
          (utf8Decode l2).map (fun cs => Char.ofNat ((b - 0xC0) * 64 + (b1 - 0x80)) :: cs)
        else none
      | _ => none
    else if b < 0xF0 then
      match l with
      | b1 :: b2 :: l3 =>
        if (if b = 0xE0 then 0xA0 ≤ b1 && b1 ≤ 0xBF
            else if b = 0xED then 0x80 ≤ b1 && b1 ≤ 0x9F
            else isCont b1) && isCont b2 then
          (utf8Decode l3).map (fun cs =>
            Char.ofNat ((b - 0xE0) * 4096 + (b1 - 0x80) * 64 + (b2 - 0x80)) :: cs)
        else none
      | _ => none
    else if b ≤ 0xF4 then
      match l with
      | b1 :: b2 :: b3 :: l4 =>
        if (if b = 0xF0 then 0x90 ≤ b1 && b1 ≤ 0xBF
            else if b = 0xF4 then 0x80 ≤ b1 && b1 ≤ 0x8F
            else isCont b1) && isCont b2 && isCont b3 then
          (utf8Decode l4).map (fun cs =>
            Char.ofNat ((b - 0xF0) * 262144 + (b1 - 0x80) * 4096
              + (b2 - 0x80) * 64 + (b3 - 0x80)) :: cs)
        else none
      | _ => none
    else none

/-- The unhandled Python exceptions `bin_list` can raise after the fetch. -/
inductive Err
  | decodeError      -- UnicodeDecodeError from resp.read().decode('utf-8')
  | noVersionsFound  -- IndexError from vers[0] when no version token matched
  deriving DecidableEq, Repr

/-- The pure tail of `bin_list` operating on an already-stripped `url` and
the decoded `body`: extract tokens, sort descending, take `vers[0]`, build
the two URLs. -/
def resolveBody (url body : String) : Except Err (List String) :=
  let vers := sortDesc (scanTokensS body)
  match vers with
  | [] => Except.error Err.noVersionsFound
  | latest_ver :: _ =>
    let list_url := url ++ "/" ++ latest_ver ++ "/binaries"
    Except.ok [list_url ++ "/apache-maven-" ++ latest_ver ++ "-bin.tar.gz",
               list_url ++ "/apache-maven-" ++ latest_ver ++ "-bin.zip"]

/-- `bin_list` given the decoded response body directly (URL stripping
included, network and decoding factored out). -/
def bin_list_str (url body : String) : Except Err (List String) :=
  resolveBody (stripSlashes url) body

/-- Instrumented `bin_list`: the result together with the trace of URLs
requested from the network oracle during the call. -/
def bin_listT (net : String → List Nat) (url0 : String) :
    Except Err (List String) × List String :=
  let url := stripSlashes url0
  let bytes := net url
  (match utf8Decode bytes with
   | none => Except.error Err.decodeError
   | some cs => resolveBody url (String.mk cs),
   [url])

/-- `bin_list` from the source: strip the url, fetch, decode as UTF-8,
extract and sort version tokens, return the two artifact URLs. -/
def bin_list (net : String → List Nat) (url0 : String) : Except Err (List String) :=
  (bin_listT net url0).1

/-- DFA for full-string membership in the token language
`\d+((\.|-)(\d|\w)+)+`.  State 0: start; 1: inside the leading digit run;
2: just after a separator; 3: inside a post-separator run (accepting);
9: reject sink. -/
def tokStep : Nat → Char → Nat
  | 0, c => if isDig c then 1 else 9
  | 1, c => if isDig c then 1 else if isSep c then 2 else 9
  | 2, c => if isTokCh c then 3 else 9
  | 3, c => if isTokCh c then 3 else if isSep c then 2 else 9
  | _, _ => 9

/-- Declarative membership test: `t` matches `\d+((\.|-)(\d|\w)+)+` exactly. -/
def tokenOK (t : List Char) : Bool := t.foldl tokStep 0 = 3

/-! ### Bridge between the executable comparison and the `String` order -/

theorem ltChars_iff_lex : ∀ as bs : List Char,
    ltChars as bs = true ↔ List.Lex (fun a b : Char => a < b) as bs := by
  intro as
  induction as with
  | nil =>
    intro bs
    cases bs with
    | nil =>
      constructor
      · intro h; simp [ltChars] at h
      · intro h; nomatch h
    | cons b bs =>
      constructor
      · intro _; exact List.Lex.nil
      · intro _; rfl
  | cons a as ih =>
    intro bs
    cases bs with
    | nil =>
      constructor
      · intro h; simp [ltChars] at h
      · intro h; nomatch h
    | cons b bs =>
      by_cases hab : a < b
      · simp only [ltChars, if_pos hab, true_iff]
        exact List.Lex.rel hab
      · by_cases hba : b < a
        · simp only [ltChars, if_neg hab, if_pos hba]
          constructor
          · intro h; simp at h
          · intro h
            exfalso
            cases h with
            | cons h1 => exact absurd hba (lt_irrefl _)
            | rel h1 => exact hab h1
        · have hab' : a = b := le_antisymm (le_of_not_lt hba) (le_of_not_lt hab)
          subst hab'
          simp only [ltChars, if_neg hab, if_neg hba]
          rw [ih bs]
          constructor
          · intro h; exact List.Lex.cons h
          · intro h
            cases h with
            | cons h1 => exact h1
            | rel h1 => exact absurd h1 (lt_irrefl _)

theorem ltChars_iff_lt_str (s t : String) : ltChars s.data t.data = true ↔ s < t := by
  rw [String.lt_iff_toList_lt]
  exact ltChars_iff_lex s.data t.data

theorem le_str_of_ltChars_false {s t : String} (h : ltChars t.data s.data = false) :
    s ≤ t := by
  refine le_of_not_lt (fun hc => ?_)
  rw [← ltChars_iff_lt_str] at hc
  rw [h] at hc
  exact Bool.false_ne_true hc

/-! ### Sorting lemmas: `sortDesc` is a descending-sorted permutation -/

theorem insertDesc_perm (s : String) :
    ∀ l : List String, List.Perm (insertDesc s l) (s :: l) := by
  intro l
  induction l with
  | nil => exact List.Perm.refl _
  | cons t ts ih =>
    by_cases h : ltChars t.data s.data = true
    · simp [insertDesc, h]
    · simp only [insertDesc, if_neg h]
      exact (ih.cons t).trans (List.Perm.swap s t ts)

theorem foldl_insertDesc_perm :
    ∀ (l acc : List String),
      List.Perm (List.foldl (fun acc s => insertDesc s acc) acc l) (l ++ acc) := by
  intro l
  induction l with
  | nil => intro acc; exact List.Perm.refl _
  | cons x xs ih =>
    intro acc
    refine ((ih (insertDesc x acc)).trans ?_)
    refine (List.Perm.append_left xs (insertDesc_perm x acc)).trans ?_
    exact List.perm_middle

theorem sortDesc_perm (l : List String) : List.Perm (sortDesc l) l := by
  have h := foldl_insertDesc_perm l []
  simpa [sortDesc] using h

theorem mem_insertDesc {x s : String} {l : List String} :
    x ∈ insertDesc s l ↔ x = s ∨ x ∈ l := by
  have h := (insertDesc_perm s l).mem_iff (a := x)
  simpa using h

theorem insertDesc_sorted {s : String} {l : List String}
    (h : l.Pairwise (fun a b => b ≤ a)) :
    (insertDesc s l).Pairwise (fun a b => b ≤ a) := by
  induction l with
  | nil => simp [insertDesc]
  | cons t ts ih =>
    rcases List.pairwise_cons.mp h with ⟨hts, hp⟩
    by_cases hlt : ltChars t.data s.data = true
    · have hts' : t < s := (ltChars_iff_lt_str t s).mp hlt
      simp only [insertDesc, if_pos hlt]
      refine List.pairwise_cons.mpr ⟨?_, h⟩
      intro b hb
      rcases List.mem_cons.mp hb with rfl | hb
      · exact le_of_lt hts'
      · exact le_trans (hts b hb) (le_of_lt hts')
    · have hst : s ≤ t :=
        le_str_of_ltChars_false (Bool.eq_false_iff.mpr hlt)
      simp only [insertDesc, if_neg hlt]
      refine List.pairwise_cons.mpr ⟨?_, ih hp⟩
      intro b hb
      rcases mem_insertDesc.mp hb with rfl | hb
      · exact hst
      · exact hts b hb

theorem foldl_insertDesc_sorted :
    ∀ (l acc : List String), acc.Pairwise (fun a b => b ≤ a) →
      (List.foldl (fun acc s => insertDesc s acc) acc l).Pairwise (fun a b => b ≤ a) := by
  intro l
  induction l with
  | nil => intro acc h; exact h
  | cons x xs ih => intro acc h; exact ih _ (insertDesc_sorted h)

theorem sortDesc_sorted (l : List String) :
    (sortDesc l).Pairwise (fun a b => b ≤ a) :=
  foldl_insertDesc_sorted l [] (List.Pairwise.nil)

/-- The head of the descending sort is a maximum of the input list. -/
theorem sortDesc_head_max {l : List String} {v : String} {rest : List String}
    (h : sortDesc l = v :: rest) : v ∈ l ∧ ∀ t ∈ l, t ≤ v := by
  have hperm : List.Perm (sortDesc l) l := sortDesc_perm l
  have hvmem : v ∈ l := hperm.mem_iff.mp (h ▸ List.mem_cons_self v rest)
  have hsorted := sortDesc_sorted l
  rw [h] at hsorted
  rcases List.pairwise_cons.mp hsorted with ⟨hrest, _⟩
  refine ⟨hvmem, ?_⟩
  intro t ht
  have : t ∈ v :: rest := h ▸ hperm.symm.mem_iff.mp ht
  rcases List.mem_cons.mp this with rfl | hmem
  · exact le_refl t
  · exact hrest t hmem

theorem sortDesc_ne_nil {l : List String} (h : l ≠ []) : sortDesc l ≠ [] := by
  intro hc
  have := (sortDesc_perm l).length_eq
  rw [hc] at this
  exact h (List.eq_nil_of_length_eq_zero this.symm)

/-! ### takeWhile / dropWhile over appends -/

theorem dropWhile_append_all {p : Char → Bool} :
    ∀ {l : List Char} (m : List Char), (∀ x ∈ l, p x = true) →
      List.dropWhile p (l ++ m) = List.dropWhile p m := by
  intro l
  induction l with
  | nil => intro m _; rfl
  | cons a l ih =>
    intro m h
    have ha : p a = true := h a (List.mem_cons_self a l)
    simp only [List.cons_append, List.dropWhile_cons, ha, if_pos]
    exact ih m (fun x hx => h x (List.mem_cons_of_mem a hx))

theorem takeWhile_append_of_dropWhile_ne_nil {p : Char → Bool} :
    ∀ {l : List Char} (m : List Char), List.dropWhile p l ≠ [] →
      List.takeWhile p (l ++ m) = List.takeWhile p l ∧
      List.dropWhile p (l ++ m) = List.dropWhile p l ++ m := by
  intro l
  induction l with
  | nil => intro m h; exact absurd rfl h
  | cons a l ih =>
    intro m h
    by_cases ha : p a = true
    · simp only [List.dropWhile_cons, ha, if_pos] at h
      have := ih m h
      simp only [List.cons_append, List.takeWhile_cons, List.dropWhile_cons, ha, if_pos,
        this.1, this.2, and_self]
    · have ha' : p a = false := Bool.eq_false_iff.mpr ha
      simp [List.takeWhile_cons, List.dropWhile_cons, ha']

/-! ### Structure of the scanner output -/

theorem sepGroupsAux_append (p : Char → Bool) :
    ∀ (fuel : Nat) (l : List Char),
      (sepGroupsAux p fuel l).1 ++ (sepGroupsAux p fuel l).2 = l := by
  intro fuel
  induction fuel with
  | zero => intro l; cases l <;> rfl
  | succ fuel ih =>
    intro l
    cases l with
    | nil => rfl
    | cons c rest =>
      by_cases hc : isSep c = true
      · by_cases hw : rest.takeWhile p = []
        · simp [sepGroupsAux, hc, hw]
        · simp only [sepGroupsAux, hc, if_pos, hw, if_neg, ite_false, ite_true]
          have hr := ih (rest.dropWhile p)
          simp only [List.cons_append, List.append_assoc]
          rw [hr]
          rw [List.takeWhile_append_dropWhile]
      · simp [sepGroupsAux, hc]

theorem matchTokenP_append {p : Char → Bool} {l t r : List Char}
    (h : matchTokenP p l = some (t, r)) : t ++ r = l := by
  unfold matchTokenP at h
  by_cases hd : l.takeWhile isDig = []
  · simp [hd] at h
  · simp only [hd, if_neg, ite_false] at h
    by_cases hg : (sepGroupsAux p (l.dropWhile isDig).length (l.dropWhile isDig)).1 = []
    · simp [hg] at h
    · simp only [hg, if_neg, ite_false, Option.some.injEq, Prod.mk.injEq] at h
      rcases h with ⟨ht, hr⟩
      subst ht hr
      rw [List.append_assoc, sepGroupsAux_append, List.takeWhile_append_dropWhile]

/-! ### The DFA accepts every token the scanner produces -/

theorem foldl_tokStep_sink : ∀ l : List Char, List.foldl tokStep 9 l = 9 := by
  intro l
  induction l with
  | nil => rfl
  | cons c l ih => simpa [tokStep] using ih

theorem foldl_tokStep_digits :
    ∀ l : List Char, (∀ c ∈ l, isDig c = true) → List.foldl tokStep 1 l = 1 := by
  intro l
  induction l with
  | nil => intro _; rfl
  | cons c l ih =>
    intro h
    have hc : isDig c = true := h c (List.mem_cons_self c l)
    simp only [List.foldl_cons, tokStep, hc, if_pos]
    exact ih (fun x hx => h x (List.mem_cons_of_mem c hx))

theorem foldl_tokStep_word :
    ∀ l : List Char, (∀ c ∈ l, isTokCh c = true) → List.foldl tokStep 3 l = 3 := by
  intro l
  induction l with
  | nil => intro _; rfl
  | cons c l ih =>
    intro h
    have hc : isTokCh c = true := h c (List.mem_cons_self c l)
    simp only [List.foldl_cons, tokStep, hc, if_pos]
    exact ih (fun x hx => h x (List.mem_cons_of_mem c hx))

theorem isSep_not_dig {c : Char} (h : isSep c = true) :
    isDig c = false ∧ isTokCh c = false := by
  unfold isSep at h
  rcases Bool.or_eq_true_iff.mp h with h1 | h1
  · have : c = '.' := by exact decide_eq_true_eq.mp h1
    subst this; constructor <;> decide
  · have : c = '-' := by exact decide_eq_true_eq.mp h1
    subst this; constructor <;> decide

theorem sepGroups_accept :
    ∀ (fuel : Nat) (l : List Char) (s : Nat), (s = 1 ∨ s = 3) →
      (sepGroupsAux isTokCh fuel l).1 ≠ [] →
      List.foldl tokStep s (sepGroupsAux isTokCh fuel l).1 = 3 := by
  intro fuel
  induction fuel with
  | zero => intro l s _ h; cases l <;> exact absurd rfl h
  | succ fuel ih =>
    intro l s hs h
    cases l with
    | nil => exact absurd rfl h
    | cons c rest =>
      by_cases hc : isSep c = true
      · by_cases hw : rest.takeWhile isTokCh = []
        · simp [sepGroupsAux, hc, hw] at h
        · simp only [sepGroupsAux, hc, if_pos, hw, if_neg, ite_false, ite_true] at h ⊢
          have hstep : tokStep s c = 2 := by
            rcases hs with rfl | rfl
            · simp [tokStep, (isSep_not_dig hc).1, hc]
            · simp [tokStep, (isSep_not_dig hc).2, hc]
          rw [List.foldl_cons, hstep]
          -- the word run: first char sends state 2 to 3, the rest keeps 3
          rcases hcw : rest.takeWhile isTokCh with _ | ⟨w, ws⟩
          · exact absurd hcw hw
          · have hwmem : ∀ x ∈ rest.takeWhile isTokCh, isTokCh x = true :=
              fun x hx => List.mem_takeWhile_imp hx
            have hwtok : isTokCh w = true := hwmem w (by rw [hcw]; exact List.mem_cons_self w ws)
            have hws : ∀ x ∈ ws, isTokCh x = true := by
              intro x hx
              exact hwmem x (by rw [hcw]; exact List.mem_cons_of_mem w hx)
            simp only [List.cons_append, List.foldl_cons, List.foldl_append]
            rw [show tokStep 2 w = 3 by simp [tokStep, hwtok]]
            rw [foldl_tokStep_word ws hws]
            rcases hg : (sepGroupsAux isTokCh fuel (rest.dropWhile isTokCh)).1 with _ | ⟨g, gs⟩
            · rfl
            · have := ih (rest.dropWhile isTokCh) 3 (Or.inr rfl) (by rw [hg]; simp)
              rw [hg] at this
              exact this
      · simp [sepGroupsAux, hc] at h

theorem matchTokenP_tokenOK {l t r : List Char}
    (h : matchTokenP isTokCh l = some (t, r)) : tokenOK t = true := by
  unfold matchTokenP at h
  by_cases hd : l.takeWhile isDig = []
  · simp [hd] at h
  · simp only [hd, if_neg, ite_false] at h
    by_cases hg : (sepGroupsAux isTokCh (l.dropWhile isDig).length (l.dropWhile isDig)).1 = []
    · simp [hg] at h
    · simp only [hg, if_neg, ite_false, Option.some.injEq, Prod.mk.injEq] at h
      rcases h with ⟨ht, _⟩
      subst ht
      unfold tokenOK
      rw [List.foldl_append]
      rcases hds : l.takeWhile isDig with _ | ⟨d, ds⟩
      · exact absurd hds hd
      · have hdmem : ∀ x ∈ l.takeWhile isDig, isDig x = true :=
          fun x hx => List.mem_takeWhile_imp hx
        have hddig : isDig d = true := hdmem d (by rw [hds]; exact List.mem_cons_self d ds)
        have hdss : ∀ x ∈ ds, isDig x = true := by
          intro x hx
          exact hdmem x (by rw [hds]; exact List.mem_cons_of_mem d hx)
        simp only [List.foldl_cons, decide_eq_true_eq]
        rw [show tokStep 0 d = 1 by simp [tokStep, hddig]]
        rw [foldl_tokStep_digits ds hdss]
        exact sepGroups_accept _ _ 1 (Or.inl rfl) hg

/-- Soundness of the scanner: every collected token is a full match of the
token pattern and occurs immediately after a `>` in the input. -/
theorem scanTokensAux_sound :
    ∀ (fuel : Nat) (l t : List Char), t ∈ scanTokensAux isTokCh fuel l →
      tokenOK t = true ∧ ∃ pre suf, l = pre ++ '>' :: (t ++ suf) := by
  intro fuel
  induction fuel with
  | zero => intro l t h; cases l <;> simp [scanTokensAux] at h
  | succ fuel ih =>
    intro l t h
    cases l with
    | nil => simp [scanTokensAux] at h
    | cons c rest =>
      by_cases hc : c = '>'
      · subst hc
        simp only [scanTokensAux, if_pos rfl] at h
        rcases hm : matchTokenP isTokCh rest with _ | ⟨tk, r⟩
        · rw [hm] at h
          rcases ih rest t h with ⟨htok, pre', suf, hdec⟩
          exact ⟨htok, '>' :: pre', suf, by rw [hdec]; rfl⟩
        · rw [hm] at h
          rcases List.mem_cons.mp h with rfl | hmem
          · refine ⟨matchTokenP_tokenOK hm, [], r, ?_⟩
            have := matchTokenP_append hm
            rw [← this]
            rfl
          · rcases ih r t hmem with ⟨htok, pre', suf, hdec⟩
            refine ⟨htok, '>' :: (tk ++ pre'), suf, ?_⟩
            have hr := matchTokenP_append hm
            rw [← hr, hdec]
            simp [List.append_assoc]
      · simp only [scanTokensAux, if_neg hc] at h
        rcases ih rest t h with ⟨htok, pre', suf, hdec⟩
        exact ⟨htok, c :: pre', suf, by rw [hdec]; rfl⟩

/-! ### Completeness: an accepted token right after a `>` is matched -/

theorem tokenOK_head {t : List Char} (h : tokenOK t = true) :
    ∃ d t', t = d :: t' ∧ isDig d = true ∧ List.foldl tokStep 1 t' = 3 := by
  cases t with
  | nil => simp [tokenOK] at h
  | cons d t' =>
    unfold tokenOK at h
    rw [decide_eq_true_eq] at h
    by_cases hd : isDig d = true
    · rw [List.foldl_cons, show tokStep 0 d = 1 by simp [tokStep, hd]] at h
      exact ⟨d, t', rfl, hd, h⟩
    · rw [List.foldl_cons,
        show tokStep 0 d = 9 by simp [tokStep, Bool.eq_false_iff.mpr hd]] at h
      rw [foldl_tokStep_sink] at h
      simp at h

theorem accept_state1 :
    ∀ r : List Char, List.foldl tokStep 1 r = 3 →
      ∃ c r2, List.dropWhile isDig r = c :: r2 ∧ isSep c = true ∧
        List.foldl tokStep 2 r2 = 3 := by
  intro r
  induction r with
  | nil => intro h; simp at h
  | cons c r2 ih =>
    intro h
    by_cases hd : isDig c = true
    · rw [List.foldl_cons, show tokStep 1 c = 1 by simp [tokStep, hd]] at h
      rcases ih h with ⟨c', r', h1, h2, h3⟩
      exact ⟨c', r', by simp [List.dropWhile_cons, hd, h1], h2, h3⟩
    · by_cases hsep : isSep c = true
      · rw [List.foldl_cons,
          show tokStep 1 c = 2 by simp [tokStep, Bool.eq_false_iff.mpr hd, hsep]] at h
        exact ⟨c, r2, by simp [List.dropWhile_cons, Bool.eq_false_iff.mpr hd], hsep, h⟩
      · rw [List.foldl_cons,
          show tokStep 1 c = 9 by
            simp [tokStep, Bool.eq_false_iff.mpr hd, Bool.eq_false_iff.mpr hsep]] at h
        rw [foldl_tokStep_sink] at h
        simp at h

theorem accept_state2 :
    ∀ r : List Char, List.foldl tokStep 2 r = 3 →
      ∃ w r3, r = w :: r3 ∧ isTokCh w = true := by
  intro r
  cases r with
  | nil => intro h; simp at h
  | cons w r3 =>
    intro h
    by_cases hw : isTokCh w = true
    · exact ⟨w, r3, rfl, hw⟩
    · rw [List.foldl_cons,
        show tokStep 2 w = 9 by simp [tokStep, Bool.eq_false_iff.mpr hw]] at h
      rw [foldl_tokStep_sink] at h
      simp at h

/-- A token accepted by the DFA, placed at the start of the input, is matched
by the greedy matcher (possibly matching an even longer token). -/
theorem matchTokenP_of_tokenOK {t : List Char} (suf : List Char) (h : tokenOK t = true) :
    matchTokenP isTokCh (t ++ suf) ≠ none := by
  rcases tokenOK_head h with ⟨d, t', rfl, hd, h1⟩
  rcases accept_state1 t' h1 with ⟨c, r2, hdw, hsep, h2⟩
  rcases accept_state2 r2 h2 with ⟨w, r3, rfl, hw⟩
  have hdwt : List.dropWhile isDig (d :: t') = c :: w :: r3 := by
    simp [List.dropWhile_cons, hd, hdw]
  have hne : List.dropWhile isDig (d :: t') ≠ [] := by rw [hdwt]; simp
  have happ := takeWhile_append_of_dropWhile_ne_nil (l := d :: t') suf hne
  have htwne : List.takeWhile isDig ((d :: t') ++ suf) ≠ [] := by
    rw [happ.1]
    simp [List.takeWhile_cons, hd]
  have hdw2 : List.dropWhile isDig ((d :: t') ++ suf) = c :: w :: (r3 ++ suf) := by
    rw [happ.2, hdwt]
    simp
  have hgr : (sepGroupsAux isTokCh
      (List.dropWhile isDig ((d :: t') ++ suf)).length
      (List.dropWhile isDig ((d :: t') ++ suf))).1 ≠ [] := by
    rw [hdw2]
    simp only [List.length_cons]
    simp [sepGroupsAux, hsep, List.takeWhile_cons, hw]
  unfold matchTokenP
  simp only [if_neg htwne, if_neg hgr]
  exact fun hcon => Option.noConfusion hcon

theorem scanTokensAux_complete :
    ∀ (fuel : Nat) (l : List Char), l.length ≤ fuel →
      (∃ pre t suf, l = pre ++ '>' :: (t ++ suf) ∧ tokenOK t = true) →
      scanTokensAux isTokCh fuel l ≠ [] := by
  intro fuel
  induction fuel with
  | zero =>
    intro l hlen hex
    rcases hex with ⟨pre, t, suf, heq, _⟩
    have hl : l = [] := List.eq_nil_of_length_eq_zero (Nat.le_zero.mp hlen)
    rw [hl] at heq
    simp at heq
  | succ fuel ih =>
    intro l hlen hex
    rcases hex with ⟨pre, t, suf, heq, htok⟩
    cases l with
    | nil => simp at heq
    | cons c rest =>
      have hlen' : rest.length ≤ fuel := by
        simp only [List.length_cons] at hlen
        omega
      by_cases hc : c = '>'
      · subst hc
        rcases hm : matchTokenP isTokCh rest with _ | tr
        · cases pre with
          | nil =>
            simp only [List.nil_append, List.cons.injEq] at heq
            rw [heq.2] at hm
            exact absurd hm (matchTokenP_of_tokenOK suf htok)
          | cons p pre' =>
            simp only [List.cons_append, List.cons.injEq] at heq
            simp only [scanTokensAux, if_pos rfl, hm]
            exact ih rest hlen' ⟨pre', t, suf, heq.2, htok⟩
        · simp [scanTokensAux, hm]
      · cases pre with
        | nil =>
          simp only [List.nil_append, List.cons.injEq] at heq
          exact absurd heq.1 hc
        | cons p pre' =>
          simp only [List.cons_append, List.cons.injEq] at heq
          simp only [scanTokensAux, if_neg hc]
          exact ih rest hlen' ⟨pre', t, suf, heq.2, htok⟩

/-! ### Lemmas about `strip('/')` -/

theorem dropWhile_slash_replicate (n : Nat) :
    List.dropWhile (fun c => c = '/') (List.replicate n '/') = [] := by
  rw [List.dropWhile_eq_nil_iff]
  intro x hx
  simp [List.eq_of_mem_replicate hx]

theorem stripSlashesL_append_slashes (u : List Char) (n : Nat) :
    stripSlashesL (u ++ List.replicate n '/') = stripSlashesL u := by
  unfold stripSlashesL
  by_cases h : List.dropWhile (fun c => c = '/') u = []
  · rw [dropWhile_append_all _ (List.dropWhile_eq_nil_iff.mp h),
      dropWhile_slash_replicate, h]
  · rw [(takeWhile_append_of_dropWhile_ne_nil _ h).2]
    rw [List.reverse_append, List.reverse_replicate]
    rw [dropWhile_append_all _ (fun x hx => by simp [List.eq_of_mem_replicate hx])]

theorem stripSlashesL_slashes_append (n : Nat) (u : List Char) :
    stripSlashesL (List.replicate n '/' ++ u) = stripSlashesL u := by
  unfold stripSlashesL
  rw [dropWhile_append_all _ (fun x hx => by simp [List.eq_of_mem_replicate hx])]

theorem stripSlashes_append_slashes (u : String) (n : Nat) :
    stripSlashes (u ++ slashes n) = stripSlashes u := by
  unfold stripSlashes
  rw [String.data_append,
    show (slashes n).data = List.replicate n '/' from rfl,
    stripSlashesL_append_slashes]

theorem stripSlashes_slashes_append (n : Nat) (u : String) :
    stripSlashes (slashes n ++ u) = stripSlashes u := by
  unfold stripSlashes
  rw [String.data_append,
    show (slashes n).data = List.replicate n '/' from rfl,
    stripSlashesL_slashes_append]

/-- `(\d|\w)` and `\w` agree on every character, since every digit is a word
character. -/
theorem isTokCh_eq_isWordCh : isTokCh = isWordCh := by
  funext c
  unfold isTokCh isDig isWordCh
  have haux : ∀ a b c' d : Bool, (c' || (a || b || c' || d)) = (a || b || c' || d) := by
    decide
  exact haux _ _ _ _

/-! ### The claims -/

/-- C1: whenever the extracted token list is non-empty, the version used to
build the returned URLs is the greatest token under lexicographic string
order (the head of the descending sort); the pair of URLs interpolates that
version. -/
theorem claim_C1 (url body v : String) (rest : List String)
    (h : sortDesc (scanTokensS body) = v :: rest) :
    v ∈ scanTokensS body ∧ (∀ t ∈ scanTokensS body, t ≤ v) ∧
    bin_list_str url body = Except.ok
      [stripSlashes url ++ "/" ++ v ++ "/binaries" ++ "/apache-maven-" ++ v
        ++ "-bin.tar.gz",
       stripSlashes url ++ "/" ++ v ++ "/binaries" ++ "/apache-maven-" ++ v
        ++ "-bin.zip"] := by
  obtain ⟨hmem, hmax⟩ := sortDesc_head_max h
  refine ⟨hmem, hmax, ?_⟩
  unfold bin_list_str resolveBody
  rw [h]

/-- Witness for C1, with the tokens `3.10.0` and `3.9.0`: the selected
"latest" version is `3.9.0`, the lexicographically greatest. -/
theorem claim_C1_witness :
    sortDesc (scanTokensS ">3.10.0 >3.9.0") = "3.9.0" :: ["3.10.0"] ∧
    ("3.9.0" ∈ scanTokensS ">3.10.0 >3.9.0" ∧
      (∀ t ∈ scanTokensS ">3.10.0 >3.9.0", t ≤ "3.9.0") ∧
      bin_list_str "b" ">3.10.0 >3.9.0" = Except.ok
        [stripSlashes "b" ++ "/" ++ "3.9.0" ++ "/binaries" ++ "/apache-maven-"
          ++ "3.9.0" ++ "-bin.tar.gz",
         stripSlashes "b" ++ "/" ++ "3.9.0" ++ "/binaries" ++ "/apache-maven-"
          ++ "3.9.0" ++ "-bin.zip"]) :=
  ⟨by decide, claim_C1 "b" ">3.10.0 >3.9.0" "3.9.0" ["3.10.0"] (by decide)⟩

/-- C2: every collected token is a full match of `\d+((\.|-)(\d|\w)+)+` and
occurs immediately after a `>` in the body (tokens not preceded by `>` are
never collected); conversely, if an accepted token occurs right after a `>`
somewhere in the body, the scan collects at least one token. -/
theorem claim_C2 (body : List Char) :
    (∀ t ∈ scanTokens body, tokenOK t = true ∧
      ∃ pre suf, body = pre ++ '>' :: (t ++ suf)) ∧
    ((∃ pre t suf, body = pre ++ '>' :: (t ++ suf) ∧ tokenOK t = true) →
      scanTokens body ≠ []) := by
  constructor
  · intro t ht
    exact scanTokensAux_sound body.length body t ht
  · intro hex
    exact scanTokensAux_complete body.length body (le_refl _) hex

/-- Witness for C2 at the concrete body `>1.2`. -/
theorem claim_C2_witness :
    (tokenOK "1.2".data = true ∧
      ∃ pre suf, ">1.2".data = pre ++ '>' :: ("1.2".data ++ suf)) ∧
    scanTokens ">1.2".data ≠ [] :=
  ⟨(claim_C2 ">1.2".data).1 "1.2".data (by decide),
   (claim_C2 ">1.2".data).2 ⟨[], "1.2".data, [], by decide, by decide⟩⟩

/-- C3: for any body whose extracted tokens are a permutation of
`3.8.5, 3.8.4, 3.8.1, 3.6.3`, and any base URL `b` with no leading/trailing
slashes to strip, the result is the `3.8.5` pair of URLs. -/
theorem claim_C3 (b body : String)
    (hb : stripSlashes b = b)
    (h : List.Perm (scanTokensS body) ["3.8.5", "3.8.4", "3.8.1", "3.6.3"]) :
    bin_list_str b body = Except.ok
      [b ++ "/3.8.5/binaries/apache-maven-3.8.5-bin.tar.gz",
       b ++ "/3.8.5/binaries/apache-maven-3.8.5-bin.zip"] := by
  have hne : scanTokensS body ≠ [] := by
    intro hc
    rw [hc] at h
    exact absurd h.length_eq (by simp)
  rcases hs : sortDesc (scanTokensS body) with _ | ⟨v, rest⟩
  · exact absurd hs (sortDesc_ne_nil hne)
  · obtain ⟨hmem, hmax⟩ := sortDesc_head_max hs
    have hv : v = "3.8.5" := by
      have h385 : "3.8.5" ∈ scanTokensS body := h.symm.subset (by simp)
      have hle : "3.8.5" ≤ v := hmax _ h385
      have hvmem : v ∈ (["3.8.5", "3.8.4", "3.8.1", "3.6.3"] : List String) :=
        h.subset hmem
      have hge : v ≤ "3.8.5" := by
        simp only [List.mem_cons, List.not_mem_nil, or_false] at hvmem
        rcases hvmem with rfl | rfl | rfl | rfl
        · exact le_refl _
        · exact le_str_of_ltChars_false (by decide)
        · exact le_str_of_ltChars_false (by decide)
        · exact le_str_of_ltChars_false (by decide)
      exact le_antisymm hge hle
    subst hv
    unfold bin_list_str resolveBody
    rw [hs, hb]
    have hfuse : ∀ s : String,
        s ++ "/" ++ "3.8.5" ++ "/binaries" ++ "/apache-maven-" ++ "3.8.5"
          ++ "-bin.tar.gz" = s ++ "/3.8.5/binaries/apache-maven-3.8.5-bin.tar.gz" ∧
        s ++ "/" ++ "3.8.5" ++ "/binaries" ++ "/apache-maven-" ++ "3.8.5"
          ++ "-bin.zip" = s ++ "/3.8.5/binaries/apache-maven-3.8.5-bin.zip" := by
      intro s
      constructor <;>
        (repeat rw [String.append_assoc]) <;> rfl
    rw [← (hfuse b).1, ← (hfuse b).2]

/-- Witness for C3 at a concrete listing body and base URL. -/
theorem claim_C3_witness :
    bin_list_str "b" ">3.8.5/ >3.8.4/ >3.8.1/ >3.6.3/" = Except.ok
      ["b/3.8.5/binaries/apache-maven-3.8.5-bin.tar.gz",
       "b/3.8.5/binaries/apache-maven-3.8.5-bin.zip"] :=
  claim_C3 "b" ">3.8.5/ >3.8.4/ >3.8.1/ >3.6.3/" (by decide)
    (by
      rw [show scanTokensS ">3.8.5/ >3.8.4/ >3.8.1/ >3.6.3/"
            = ["3.8.5", "3.8.4", "3.8.1", "3.6.3"] from by decide])

/-- C4: every successful run returns exactly two URLs, tar.gz first and zip
second, built from one version `v` by the template
`{base}/{v}/binaries/apache-maven-{v}-bin.{ext}`: they share the directory
and filename prefix and differ only in the `-bin.tar.gz` / `-bin.zip`
suffix. -/
theorem claim_C4 (url body : String) (urls : List String)
    (h : bin_list_str url body = Except.ok urls) :
    ∃ v pre, v ∈ scanTokensS body ∧
      pre = stripSlashes url ++ "/" ++ v ++ "/binaries" ++ "/apache-maven-" ++ v ∧
      urls = [pre ++ "-bin.tar.gz", pre ++ "-bin.zip"] := by
  unfold bin_list_str resolveBody at h
  rcases hs : sortDesc (scanTokensS body) with _ | ⟨v, rest⟩
  · rw [hs] at h
    exact absurd h (by simp)
  · rw [hs] at h
    refine ⟨v, _, (sortDesc_head_max hs).1, rfl, ?_⟩
    exact (Except.ok.inj h).symm

/-- Witness for C4 at a concrete body. -/
theorem claim_C4_witness :
    ∃ v pre, v ∈ scanTokensS ">1.2" ∧
      pre = stripSlashes "b" ++ "/" ++ v ++ "/binaries" ++ "/apache-maven-" ++ v ∧
      ["b/1.2/binaries/apache-maven-1.2-bin.tar.gz",
       "b/1.2/binaries/apache-maven-1.2-bin.zip"]
        = [pre ++ "-bin.tar.gz", pre ++ "-bin.zip"] :=
  claim_C4 "b" ">1.2"
    ["b/1.2/binaries/apache-maven-1.2-bin.tar.gz",
     "b/1.2/binaries/apache-maven-1.2-bin.zip"] (by rfl)

/-- C5: if no version token matches, the run fails with the empty-result
error (the `IndexError` of `vers[0]`, the spec's `NoVersionsFoundError`) and
returns no URLs; in general a run either fully fails with an error or fully
succeeds with exactly two URLs. -/
theorem claim_C5 (url body : String) :
    (scanTokensS body = [] → bin_list_str url body = Except.error Err.noVersionsFound) ∧
    ((∃ e, bin_list_str url body = Except.error e) ∨
      ∃ u1 u2, bin_list_str url body = Except.ok [u1, u2]) := by
  constructor
  · intro h
    unfold bin_list_str resolveBody
    rw [h]
    rfl
  · rcases hs : sortDesc (scanTokensS body) with _ | ⟨v, rest⟩
    · left
      refine ⟨Err.noVersionsFound, ?_⟩
      unfold bin_list_str resolveBody
      rw [hs]
    · right
      unfold bin_list_str resolveBody
      rw [hs]
      exact ⟨_, _, rfl⟩

/-- Witness for C5 at a tokenless body. -/
theorem claim_C5_witness :
    bin_list_str "b" "hello" = Except.error Err.noVersionsFound ∧
    ((∃ e, bin_list_str "b" "hello" = Except.error e) ∨
      ∃ u1 u2, bin_list_str "b" "hello" = Except.ok [u1, u2]) :=
  ⟨(claim_C5 "b" "hello").1 (by decide), (claim_C5 "b" "hello").2⟩

/-- C6: appending one or more trailing slashes to the base URL does not
change the result, for any fixed network content. -/
theorem claim_C6 (net : String → List Nat) (u : String) (n : Nat)
    (_hn : 1 ≤ n) :
    bin_list net (u ++ slashes n) = bin_list net u := by
  unfold bin_list bin_listT
  rw [stripSlashes_append_slashes]

/-- Witness for C6: one trailing slash on a concrete URL. -/
theorem claim_C6_witness :
    1 ≤ 1 ∧
    bin_list (fun _ => [62, 49, 46, 50]) ("a" ++ slashes 1)
      = bin_list (fun _ => [62, 49, 46, 50]) "a" :=
  ⟨by decide, claim_C6 (fun _ => [62, 49, 46, 50]) "a" 1 (by decide)⟩

/-- C7: a response body that is not valid UTF-8 makes the run fail with the
decode error; no URLs are returned. -/
theorem claim_C7 (net : String → List Nat) (url : String)
    (h : utf8Decode (net (stripSlashes url)) = none) :
    bin_list net url = Except.error Err.decodeError := by
  unfold bin_list bin_listT
  simp only [h]

/-- Witness for C7: `0xFF` is never valid in UTF-8. -/
theorem claim_C7_witness :
    utf8Decode ((fun _ => [255]) (stripSlashes "u")) = none ∧
    bin_list (fun _ => [255]) "u" = Except.error Err.decodeError :=
  ⟨by decide, claim_C7 (fun _ => [255]) "u" (by decide)⟩

/-- C8: each invocation issues exactly one request, to the stripped base
URL (so no retries and no caching), and the result is a pure function of the
stripped base URL and the response bytes the network returns for it. -/
theorem claim_C8 :
    (∀ (net : String → List Nat) (url : String),
      (bin_listT net url).2 = [stripSlashes url]) ∧
    (∀ (net1 net2 : String → List Nat) (u1 u2 : String),
      stripSlashes u1 = stripSlashes u2 →
      net1 (stripSlashes u1) = net2 (stripSlashes u2) →
      bin_list net1 u1 = bin_list net2 u2) := by
  constructor
  · intro net url
    rfl
  · intro n1 n2 u1 u2 h1 h2
    rw [h1] at h2
    simp only [bin_list, bin_listT]
    rw [h1, h2]

/-- Witness for C8 at a concrete oracle and URL. -/
theorem claim_C8_witness :
    (bin_listT (fun _ => [62, 49, 46, 50]) "u").2 = [stripSlashes "u"] ∧
    bin_list (fun _ => [62, 49, 46, 50]) "u"
      = bin_list (fun _ => [62, 49, 46, 50]) "u" :=
  ⟨claim_C8.1 (fun _ => [62, 49, 46, 50]) "u",
   claim_C8.2 (fun _ => [62, 49, 46, 50]) (fun _ => [62, 49, 46, 50]) "u" "u" rfl rfl⟩

/-- C9: `strip('/')` removes slashes from both ends, so leading slashes are
also removed before the request is issued and before the URLs are built:
prepending slashes changes neither the requested URL nor the result. -/
theorem claim_C9 (net : String → List Nat) (u : String) (n : Nat)
    (_hn : 1 ≤ n) :
    stripSlashes (slashes n ++ u) = stripSlashes u ∧
    bin_listT net (slashes n ++ u) = bin_listT net u := by
  refine ⟨stripSlashes_slashes_append n u, ?_⟩
  unfold bin_listT
  rw [stripSlashes_slashes_append]

/-- Witness for C9: two leading slashes on a concrete URL. -/
theorem claim_C9_witness :
    1 ≤ 2 ∧
    (stripSlashes (slashes 2 ++ "a") = stripSlashes "a" ∧
      bin_listT (fun _ => [62, 49, 46, 50]) (slashes 2 ++ "a")
        = bin_listT (fun _ => [62, 49, 46, 50]) "a") :=
  ⟨by decide, claim_C9 (fun _ => [62, 49, 46, 50]) "a" 2 (by decide)⟩

/-- C10: the scan with the source pattern `>(\d+((\.|-)(\d|\w)+)+)` collects
exactly the same tokens as the scan with the simplified pattern
`>(\d+((\.|-)\w+)+)`, on every body: every digit is a word character. -/
theorem claim_C10 (body : List Char) : scanTokens body = scanTokensAlt body := by
  unfold scanTokens scanTokensAlt
  rw [isTokCh_eq_isWordCh]

end Mvn
